import Mathlib

/-!
Verification of the core algorithms of the Obsidian GitLab Issues plugin.

The plugin's pure logic is shallow-embedded here over `List Char` (document
texts) and plain inductive data:

* `buildUpdatedFrontmatter`, `fmSplit`  — src/lib/utils.ts (frontmatter editor)
* `stripFrontmatter`, `transformMarkdownForGitLab` — src/lib/utils.ts (content transformer)
* `fetchUserProjectsLoop` — the pagination loop of `fetchUserProjects`
  (src/lib/utils.ts and src/types.ts, identical logic)
* `searchProjectsValidate` / `fetchUserProjectsValidate` — the per-item
  response validation of `searchProjects` / `fetchUserProjects`
* `loadSettings`, `objAssign` — the settings load/migration step of the
  modular main variant
* `sortProjectsFavoring` — src/lib/utils.ts
* `triggerIssueCreationNotice` / `createIssueWithProgressNotice` — the
  user-notification outcomes of the two orchestrator variants
  (src/main.ts `triggerIssueCreation`, modular variant `createIssueWithProgress`)

JavaScript strings are modelled as `List Char`; regexes used by the source are
modelled by explicit scanning functions whose semantics match the (lazy /
global) regex semantics actually exercised by the source.  The multiline
`.*$` replacement is modelled with the full ECMAScript line-terminator set
(LF, CR, LS, PS) and the string replacement goes through `GetSubstitution`,
which expands `$`-patterns in the replacement text.
-/

/-! ## Generic scanning helpers -/

/-- Index of the first occurrence of `pat` as a contiguous substring of `s`
(`none` when there is no occurrence).  This is the position at which a lazy
JavaScript regex for the literal `pat` first matches. -/
def findSub (pat : List Char) : List Char → Option Nat
  | [] => if pat.isPrefixOf ([] : List Char) then some 0 else none
  | c :: t =>
    if pat.isPrefixOf (c :: t) then some 0
    else (findSub pat t).map (· + 1)

/-- Boolean substring test, as JavaScript `String.prototype.includes`. -/
def containsSub (pat s : List Char) : Bool :=
  (findSub pat s).isSome

/-- Backtick character (U+0060), spelled by code point. -/
def backtickChar : Char := Char.ofNat 96

/-- Apostrophe character (U+0027), spelled by code point. -/
def squoteChar : Char := Char.ofNat 39

/-- ECMAScript line terminators: LF, CR, LS (U+2028) and PS (U+2029).  In a
multiline regex `$` matches before any of these (and at the end of input),
and `.` matches none of them. -/
def isLineTerm (c : Char) : Bool :=
  c == '\n' || c == '\r' || c == Char.ofNat 0x2028 || c == Char.ofNat 0x2029

/-- `l` contains no line terminator. -/
abbrev noLineTerm (l : List Char) : Prop := ∀ c ∈ l, isLineTerm c = false

/-- Drop characters up to (but keeping) the first line terminator: the part
of `s` not consumed by a replacement of `.*$` in multiline mode starting at
the head of `s` (`[]` when `s` has no line terminator). -/
def dropToEol : List Char → List Char
  | [] => []
  | c :: t => if isLineTerm c then c :: t else dropToEol t

/-- Characters of `s` before its first line terminator (what `.*$` matches in
multiline mode starting at the head of `s`: the greedy `.` run stops at the
first line terminator, where multiline `$` then matches). -/
def takeToEol (s : List Char) : List Char :=
  s.takeWhile (fun c => !(isLineTerm c))

/-- ECMAScript `GetSubstitution` for a string replacement and a regex with no
capture groups: in the replacement text, `$$` yields `$`, `$&` the matched
substring, `$` followed by a backtick the part of the subject string before
the match, `$` followed by an apostrophe the part after the match; any other
`$` is kept literally (with no capture groups, `$1`-style references stay
literal). -/
def getSubstitution (matched bef aft : List Char) : List Char → List Char
  | [] => []
  | c :: t =>
    if c = '$' then
      match t with
      | [] => ['$']
      | d :: t' =>
        if d = '$' then '$' :: getSubstitution matched bef aft t'
        else if d = '&' then matched ++ getSubstitution matched bef aft t'
        else if d = backtickChar then bef ++ getSubstitution matched bef aft t'
        else if d = squoteChar then aft ++ getSubstitution matched bef aft t'
        else '$' :: d :: getSubstitution matched bef aft t'
    else c :: getSubstitution matched bef aft t

/-! ## Frontmatter editor (src/lib/utils.ts, `buildUpdatedFrontmatter`) -/

/-- Opening frontmatter marker `---\n` required at the start of the text. -/
def fmMarker : List Char := ['-', '-', '-', '\n']

/-- Closing-delimiter pattern `\n---` searched for by the frontmatter regex. -/
def nlDash : List Char := ['\n', '-', '-', '-']

/-- Three dashes, the frontmatter delimiter of `stripFrontmatter`. -/
def dash3 : List Char := ['-', '-', '-']

/-- Characters of the key `gitlab_issue_url:`. -/
def urlKey : List Char :=
  ['g', 'i', 't', 'l', 'a', 'b', '_', 'i', 's', 's', 'u', 'e', '_', 'u', 'r', 'l', ':']

/-- Rendered key line `gitlab_issue_url: "<url>"` (without trailing newline). -/
def keyLine (url : List Char) : List Char :=
  urlKey ++ ' ' :: '"' :: (url ++ ['"'])

/-- Frontmatter detection of `buildUpdatedFrontmatter`: the regex
`^(---\n[\s\S]*?)\n---`.  A match requires the text to start with `---\n`;
the lazy `[\s\S]*?` makes the closing delimiter the first occurrence of
`\n---` at position ≥ 4.  On success returns (capture group 1, text after the
whole match). -/
def fmSplit (content : List Char) : Option (List Char × List Char) :=
  if fmMarker.isPrefixOf content then
    match findSub nlDash (content.drop 4) with
    | some k => some (content.take (4 + k), content.drop (4 + k + 4))
    | none => none
  else none

/-- The frontmatter editor `buildUpdatedFrontmatter(content, issueUrl)`.
With no frontmatter match it synthesizes `---\ngitlab_issue_url: "<url>"\n---\n`
before the content.  Otherwise, if the capture group contains the substring
`gitlab_issue_url:`, the regex replace `/gitlab_issue_url:.*$/m` on the group
replaces its first `gitlab_issue_url:` occurrence through the end of its line
(the first following line terminator, where multiline `$` matches) by the
string replacement `gitlab_issue_url: "<url>"` — a string replacement, so its
`$`-patterns are expanded by `GetSubstitution` against the matched text and
its surroundings within the group; otherwise the key line is appended to the
group on a new line.  The `\n---` and the rest of the text are re-appended
unchanged. -/
def buildUpdatedFrontmatter (content issueUrl : List Char) : List Char :=
  match fmSplit content with
  | none => fmMarker ++ keyLine issueUrl ++ nlDash ++ '\n' :: content
  | some (fm, af) =>
    let fm2 : List Char :=
      match findSub urlKey fm with
      | some i =>
        fm.take i
          ++ getSubstitution (takeToEol (fm.drop i)) (fm.take i) (dropToEol (fm.drop i))
              (keyLine issueUrl)
          ++ dropToEol (fm.drop i)
      | none => fm ++ '\n' :: keyLine issueUrl
    fm2 ++ nlDash ++ af

/-! ## Content transformer (src/lib/utils.ts, `transformMarkdownForGitLab`) -/

/-- Frontmatter stripping regex `/^---[\s\S]*?---\n?/` (first match removed):
the text must start with `---`; the lazy quantifier ends the match at the
first following occurrence of `---`, plus one optional newline. -/
def stripFrontmatter (content : List Char) : List Char :=
  if dash3.isPrefixOf content then
    match findSub dash3 (content.drop 3) with
    | some k =>
      match content.drop (3 + k + 3) with
      | '\n' :: t => t
      | r => r
    | none => content
  else content

/-- Membership in the regex class `[a-zA-Z0-9_-]`. -/
def isWordChar (c : Char) : Bool :=
  (decide ('a' ≤ c) && decide (c ≤ 'z')) ||
  (decide ('A' ≤ c) && decide (c ≤ 'Z')) ||
  (decide ('0' ≤ c) && decide (c ≤ '9')) ||
  c == '_' || c == '-'

/-- Global replace of `/\[\[([^\]]+)\]\]/g` by the captured group: at each
scan position a match needs `[[`, a nonempty run of non-`]` characters, then
`]]`; scanning resumes after the match and never rescans the replacement.
Fuel is the input length; every step consumes at least one character, so the
fuel never runs out before the input is exhausted. -/
def replaceWikilinksFuel : Nat → List Char → List Char
  | 0, s => s
  | _ + 1, [] => []
  | fuel + 1, '[' :: '[' :: rest =>
    let inner := rest.takeWhile (fun c => !(c == ']'))
    let after := rest.drop inner.length
    if !inner.isEmpty && [']', ']'].isPrefixOf after then
      inner ++ replaceWikilinksFuel fuel (after.drop 2)
    else
      '[' :: replaceWikilinksFuel fuel ('[' :: rest)
  | fuel + 1, c :: rest => c :: replaceWikilinksFuel fuel rest

/-- Wikilink transform `content.replace(/\[\[([^\]]+)\]\]/g, '$1')`. -/
def replaceWikilinks (s : List Char) : List Char :=
  replaceWikilinksFuel s.length s

/-- Global replace of `/#([a-zA-Z0-9_-]+)/g` by `` `#$1` ``: a `#` followed by
a maximal nonempty run of word characters is wrapped in backticks.  Fuel as in
`replaceWikilinksFuel`. -/
def replaceTagsFuel : Nat → List Char → List Char
  | 0, s => s
  | _ + 1, [] => []
  | fuel + 1, '#' :: rest =>
    let run := rest.takeWhile isWordChar
    if run.isEmpty then '#' :: replaceTagsFuel fuel rest
    else backtickChar :: '#' :: (run ++ backtickChar :: replaceTagsFuel fuel (rest.drop run.length))
  | fuel + 1, c :: rest => c :: replaceTagsFuel fuel rest

/-- Tag transform `content.replace(/#([a-zA-Z0-9_-]+)/g, '`#$1`')`. -/
def replaceTags (s : List Char) : List Char :=
  replaceTagsFuel s.length s

/-- Whitespace recognized by `String.prototype.trim` (the ASCII part, which is
all the source's inputs use). -/
def isJsWs (c : Char) : Bool :=
  c == ' ' || c == '\n' || c == '\t' || c == '\r' ||
  c == Char.ofNat 11 || c == Char.ofNat 12

/-- JavaScript `String.prototype.trim`. -/
def trimChars (s : List Char) : List Char :=
  ((s.dropWhile isJsWs).reverse.dropWhile isJsWs).reverse

/-- Placeholder used when the transformed content is empty. -/
def emptyFallback : List Char :=
  ("Created from Obsidian note (content was empty)").toList

/-- The content transformer: strip a leading frontmatter block, unwrap
wikilinks, wrap tags in backticks, trim, and fall back to a placeholder when
empty. -/
def transformMarkdownForGitLab (content : List Char) : List Char :=
  let t1 := stripFrontmatter content
  let t2 := replaceWikilinks t1
  let t3 := replaceTags t2
  let t4 := trimChars t3
  if t4.isEmpty then emptyFallback else t4

/-! ## Pagination loop of `fetchUserProjects` (src/lib/utils.ts 127-139,
src/types.ts 140-156; both variants implement the same loop) -/

/-- One page answer of the server: the number of items that survive per-item
validation, and the parsed `X-Next-Page` header when present and nonempty. -/
structure PageResp where
  itemCount : Nat
  nextHeader : Option Nat
deriving DecidableEq

/-- The `while (hasMorePages)` loop of `fetchUserProjects`, keyed by the page
number requested.  Returns `some n` when the loop terminates after making `n`
requests, and `none` when it is still running after `fuel` requests.  Branch
order is the source's: a present nonempty `X-Next-Page` header is followed
unconditionally; otherwise a short page (fewer than `perPage = 100` items)
stops; otherwise the page number is incremented and the loop stops if the new
page number exceeds 100. -/
def fetchUserProjectsLoop (server : Nat → PageResp) : Nat → Nat → Nat → Option Nat
  | 0, _, _ => none
  | fuel + 1, page, count =>
    let r := server page
    match r.nextHeader with
    | some n => fetchUserProjectsLoop server fuel n (count + 1)
    | none =>
      if r.itemCount < 100 then some (count + 1)
      else if page + 1 > 100 then some (count + 1)
      else fetchUserProjectsLoop server fuel (page + 1) (count + 1)

/-- A server that answers every request with a full page carrying an
`X-Next-Page: 1` header. -/
def loopingServer : Nat → PageResp := fun _ => ⟨100, some 1⟩

/-! ## Settings load and migration (modular main variant `loadSettings`;
`Object.assign({}, getDefaultSettings(), savedData)` after deleting a
`projectId` field) -/

/-- JSON-ish values stored in the settings record. -/
inductive JVal where
  | s (v : String)
  | n (v : Int)
  | ns (v : List Int)
  | null
deriving DecidableEq

/-- A plain JavaScript object, as an ordered association list. -/
abbrev SettingsRecord : Type := List (String × JVal)

/-- Key-membership test (`key in obj`). -/
def hasKey : SettingsRecord → String → Bool
  | [], _ => false
  | (k', _) :: t, k => k' == k || hasKey t k

/-- First value stored under a key. -/
def lookupVal : SettingsRecord → String → Option JVal
  | [], _ => none
  | (k', v) :: t, k => if k' == k then some v else lookupVal t k

/-- JavaScript `Object.assign({}, base, overlay)`: base keys in base order
with overlay values overriding, then overlay-only keys in overlay order.
Unknown overlay keys are copied, not dropped. -/
def objAssign (base overlay : SettingsRecord) : SettingsRecord :=
  base.map (fun kv =>
    match lookupVal overlay kv.1 with
    | some v => (kv.1, v)
    | none => kv) ++
  overlay.filter (fun kv => !(hasKey base kv.1))

/-- Defaults returned by `getDefaultSettings()` (src/lib/utils.ts). -/
def getDefaultSettings : SettingsRecord :=
  [("token", JVal.s ("")),
   ("defaultLabels", JVal.s ("")),
   ("gitlabUrl", JVal.s ("https://gitlab.com")),
   ("favProjects", JVal.ns [])]

/-- Migration step: `delete savedData.projectId` (the source deletes only when
the key is present; filtering is the identity otherwise). -/
def deleteProjectId (r : SettingsRecord) : SettingsRecord :=
  r.filter (fun kv => !(kv.1 == "projectId"))

/-- The `loadSettings` merge of the modular main variant: delete the
deprecated `projectId` field from the saved record (when a record was saved at
all), then `Object.assign({}, getDefaultSettings(), savedData)`. -/
def loadSettings (saved : Option SettingsRecord) : SettingsRecord :=
  match saved with
  | none => objAssign getDefaultSettings []
  | some r => objAssign getDefaultSettings (deleteProjectId r)

/-! ## Response-item validation of `searchProjects` and `fetchUserProjects`
(src/lib/utils.ts 109-123 and 206-219) -/

/-- A raw JSON response item; `none` marks an absent field. -/
structure RawItem where
  id : Option JVal
  name : Option JVal
  path_with_namespace : Option JVal
  description : Option JVal
  web_url : Option JVal
deriving DecidableEq

/-- Test `typeof x === 'number'` on a possibly absent field. -/
def isNumField : Option JVal → Bool
  | some (JVal.n _) => true
  | _ => false

/-- Test `typeof x === 'string'` on a possibly absent field. -/
def isStrField : Option JVal → Bool
  | some (JVal.s _) => true
  | _ => false

/-- JavaScript truthiness of a `JVal` (used by `p.description || null`). -/
def jsTruthy : JVal → Bool
  | JVal.s v => !(v == "")
  | JVal.n v => !(v == 0)
  | JVal.ns _ => true
  | JVal.null => false

/-- The mapped project shape produced by both validators: fields are copied
as-is (`web_url` stays absent when the raw item lacked it), and
`description` becomes `p.description || null`. -/
structure ProjOut where
  id : Option JVal
  name : Option JVal
  path_with_namespace : Option JVal
  description : JVal
  web_url : Option JVal
deriving DecidableEq

/-- The `.map` step shared by both validators. -/
def mkProj (p : RawItem) : ProjOut :=
  { id := p.id
    name := p.name
    path_with_namespace := p.path_with_namespace
    description :=
      match p.description with
      | some v => if jsTruthy v then v else JVal.null
      | none => JVal.null
    web_url := p.web_url }

/-- The filter of `searchProjects`: numeric `id`, string `name`, string
`path_with_namespace`; `web_url` is not checked. -/
def searchItemValid (p : RawItem) : Bool :=
  isNumField p.id && isStrField p.name && isStrField p.path_with_namespace

/-- The filter of `fetchUserProjects`: additionally requires a string
`web_url`. -/
def fetchItemValid (p : RawItem) : Bool :=
  searchItemValid p && isStrField p.web_url

/-- The `data.filter(...).map(...)` step of `searchProjects`. -/
def searchProjectsValidate (items : List RawItem) : List ProjOut :=
  (items.filter searchItemValid).map mkProj

/-- The `data.filter(...).map(...)` step of `fetchUserProjects`. -/
def fetchUserProjectsValidate (items : List RawItem) : List ProjOut :=
  (items.filter fetchItemValid).map mkProj

/-! ## Project sorting (src/lib/utils.ts, `sortProjectsFavoring`) -/

/-- The project entity handed to the picker. -/
structure GitLabProject where
  id : Nat
  name : List Char
  path_with_namespace : List Char
  description : Option (List Char)
  web_url : List Char
deriving DecidableEq

/-- Lexicographic character comparison standing in for
`String.prototype.localeCompare`; the permutation property proved below does
not depend on the comparator. -/
def charListCompare : List Char → List Char → Int
  | [], [] => 0
  | [], _ :: _ => -1
  | _ :: _, [] => 1
  | a :: as, b :: bs =>
    if a < b then -1 else if b < a then 1 else charListCompare as bs

/-- The comparator of `sortProjectsFavoring`: favorites first, then by name.
`favs.contains` models membership in the `Set` built from `favoriteIds`. -/
def projCompare (favs : List Nat) (a b : GitLabProject) : Int :=
  let aFav := favs.contains a.id
  let bFav := favs.contains b.id
  if aFav && !bFav then -1
  else if !aFav && bFav then 1
  else charListCompare a.name b.name

/-- Insert an element into a list already processed by the comparator-driven
sort. -/
def insertByCmp (cmp : GitLabProject → GitLabProject → Int) (x : GitLabProject) :
    List GitLabProject → List GitLabProject
  | [] => [x]
  | y :: ys => if cmp x y ≤ 0 then x :: y :: ys else y :: insertByCmp cmp x ys

/-- Comparator-driven sort.  `Array.prototype.sort`'s algorithm is
implementation-defined; insertion sort is used here, and the property proved
below (the output is a permutation of the input) holds for any such sort. -/
def sortByCmp (cmp : GitLabProject → GitLabProject → Int)
    (l : List GitLabProject) : List GitLabProject :=
  l.foldr (insertByCmp cmp) []

/-- The sort of `sortProjectsFavoring(projects, favoriteIds)`. -/
def sortProjectsFavoring (projects : List GitLabProject) (favoriteIds : List Nat) :
    List GitLabProject :=
  sortByCmp (projCompare favoriteIds) projects

/-! ## Orchestrator notifications (src/main.ts `triggerIssueCreation` 139-148;
modular variant `createIssueWithProgress` 176-194) -/

/-- Notice prefix of the `main.ts` success path. -/
def successNoticePrefix : List Char :=
  ("GitLab issue created successfully!\nURL: ").toList

/-- Warning suffix appended by `main.ts` when the frontmatter write fails. -/
def frontmatterWarnSuffix : List Char :=
  ("\n\nWarning: Could not update file frontmatter.").toList

/-- Plain failure notice of `main.ts` when no issue URL was obtained. -/
def plainCreateFailureNotice : List Char :=
  ("Failed to create GitLab issue. Please check your settings and try again.").toList

/-- The single notice emitted by `triggerIssueCreation` (src/main.ts) after
the create step, as a function of the returned issue URL (if any) and whether
the subsequent frontmatter write threw. -/
def triggerIssueCreationNotice (issueUrl : Option (List Char)) (writeFails : Bool) :
    List Char :=
  match issueUrl with
  | some url =>
    if writeFails then successNoticePrefix ++ url ++ frontmatterWarnSuffix
    else successNoticePrefix ++ url
  | none => plainCreateFailureNotice

/-- Success notice prefix of the modular variant. -/
def progressSuccessPrefix : List Char :=
  ("✅ GitLab issue created successfully!\n").toList

/-- Generic error notice prefix of the modular variant's catch-all handler. -/
def progressErrorPrefix : List Char :=
  ("❌ Error creating GitLab issue: ").toList

/-- The single notice emitted by `createIssueWithProgress` (modular variant)
after a successful create returning `issueUrl`, as a function of the error
message thrown by the `vault.modify` write (when it fails, the exception lands
in the surrounding generic catch; timeouts aside, the notice is the generic
error message). -/
def createIssueWithProgressNotice (issueUrl : List Char) (writeError : Option (List Char)) :
    List Char :=
  match writeError with
  | none => progressSuccessPrefix ++ issueUrl
  | some m => progressErrorPrefix ++ m

/-! ## Derived notions used to state the properties below -/

/-- Join frontmatter lines with newline separators (no trailing newline):
the interior of a frontmatter block whose lines are `lines`. -/
def joinLines : List (List Char) → List Char
  | [] => []
  | [l] => l
  | l :: l' :: ls => l ++ '\n' :: joinLines (l' :: ls)

/-- Offset of the line following the lines `pre` inside `joinLines` output
(each line contributes its length plus one separator). -/
def linePos : List (List Char) → Nat
  | [] => 0
  | l :: ls => l.length + 1 + linePos ls

/-- The editor's replacement is a no-op (for a `$`-free URL, whose string
replacement expands to itself) exactly when the detected frontmatter already
stores this URL: the first `gitlab_issue_url:` occurrence runs to its line's
first line terminator as precisely the key line the editor would write. -/
def alreadyRecorded (content url : List Char) : Bool :=
  match fmSplit content with
  | none => false
  | some (fm, _) =>
    match findSub urlKey fm with
    | none => false
    | some i => takeToEol (fm.drop i) == keyLine url

/-! ## Lemma kit: `findSub` as the first-occurrence search -/

theorem findSub_some_spec {pat s : List Char} {k : Nat} (h : findSub pat s = some k) :
    pat <+: s.drop k ∧ ∀ j, j < k → ¬ pat <+: s.drop j := by
  induction s generalizing k with
  | nil =>
    unfold findSub at h
    split at h
    · rename_i hp
      cases h
      exact ⟨List.isPrefixOf_iff_prefix.mp hp, fun j hj => by omega⟩
    · cases h
  | cons c t ih =>
    unfold findSub at h
    split at h
    · rename_i hp
      cases h
      exact ⟨List.isPrefixOf_iff_prefix.mp hp, fun j hj => by omega⟩
    · rename_i hp
      rw [Option.map_eq_some'] at h
      obtain ⟨k', hk', rfl⟩ := h
      obtain ⟨h1, h2⟩ := ih hk'
      refine ⟨by simpa using h1, ?_⟩
      intro j hj
      cases j with
      | zero =>
        intro hpre
        exact hp (List.isPrefixOf_iff_prefix.mpr (by simpa using hpre))
      | succ j' =>
        intro hpre
        exact h2 j' (by omega) (by simpa using hpre)

theorem findSub_none_spec {pat s : List Char} (h : findSub pat s = none) :
    ∀ j, ¬ pat <+: s.drop j := by
  induction s with
  | nil =>
    unfold findSub at h
    split at h
    · cases h
    · rename_i hp
      intro j hpre
      rw [List.drop_nil] at hpre
      have hnil : pat = [] := List.prefix_nil.mp hpre
      subst hnil
      exact hp (List.isPrefixOf_iff_prefix.mpr List.nil_prefix)
  | cons c t ih =>
    unfold findSub at h
    split at h
    · cases h
    · rename_i hp
      have ht : findSub pat t = none := by
        cases hft : findSub pat t with
        | none => rfl
        | some k => rw [hft] at h; cases h
      intro j
      cases j with
      | zero =>
        intro hpre
        exact hp (List.isPrefixOf_iff_prefix.mpr (by simpa using hpre))
      | succ j' =>
        intro hpre
        exact ih ht j' (by simpa using hpre)

theorem findSub_some_intro {pat s : List Char} {k : Nat}
    (h1 : pat <+: s.drop k) (h2 : ∀ j, j < k → ¬ pat <+: s.drop j) :
    findSub pat s = some k := by
  induction s generalizing k with
  | nil =>
    rw [List.drop_nil] at h1
    have hk : k = 0 := by
      by_contra hne
      exact h2 0 (by omega) (by simpa using h1)
    subst hk
    unfold findSub
    rw [if_pos (List.isPrefixOf_iff_prefix.mpr (by simpa using h1))]
  | cons c t ih =>
    cases k with
    | zero =>
      unfold findSub
      rw [if_pos (List.isPrefixOf_iff_prefix.mpr (by simpa using h1))]
    | succ k' =>
      unfold findSub
      rw [if_neg (fun hp => h2 0 (by omega)
        (by simpa using List.isPrefixOf_iff_prefix.mp hp))]
      rw [ih (by simpa using h1) (fun j hj hpre => h2 (j + 1) (by omega) (by simpa using hpre))]
      rfl

theorem findSub_none_intro {pat s : List Char}
    (h : ∀ j, ¬ pat <+: s.drop j) : findSub pat s = none := by
  cases hf : findSub pat s with
  | none => rfl
  | some k => exact absurd (findSub_some_spec hf).1 (h k)

/-! ## Lemma kit: prefixes across appends -/

theorem prefix_of_append_le {X A B : List Char} (h : X <+: A ++ B)
    (hlen : X.length ≤ A.length) : X <+: A := by
  rcases List.prefix_or_prefix_of_prefix h (List.prefix_append A B) with hc | hc
  · exact hc
  · have hXA : X = A := ((List.IsPrefix.eq_of_length_le hc) (by omega)).symm
    exact hXA ▸ List.prefix_refl X

theorem head_eq_of_prefix_cons {a b : Char} {t₁ t₂ : List Char}
    (h : (a :: t₁) <+: (b :: t₂)) : a = b := by
  obtain ⟨r, hr⟩ := h
  exact (List.cons.injEq _ _ _ _ ▸ hr).1

theorem findSub_none_of_head_notMem {c : Char} {pt A : List Char} (h : c ∉ A) :
    findSub (c :: pt) A = none := by
  apply findSub_none_intro
  intro j hpre
  cases hd : A.drop j with
  | nil =>
    rw [hd] at hpre
    cases List.prefix_nil.mp hpre
  | cons a t =>
    rw [hd] at hpre
    have hc : c = a := head_eq_of_prefix_cons hpre
    have ha : a ∈ A := List.mem_of_mem_drop (hd ▸ List.mem_cons_self a t)
    exact h (hc ▸ ha)

/-- No occurrence of `pat` can begin inside the `P` part of `P ++ B`, given
that `pat` does not occur inside `P` itself and that no proper prefix of `pat`
ending `P` continues into `B`. -/
theorem no_occurrence_in_left_part {pat P B : List Char}
    (hP : findSub pat P = none)
    (hspill : ∀ m, 0 < m → m < pat.length → pat.take m <:+ P → ¬ pat.drop m <+: B) :
    ∀ j, j < P.length → ¬ pat <+: (P ++ B).drop j := by
  intro j hj hpre
  have hdrop : (P ++ B).drop j = P.drop j ++ B := by
    rw [List.drop_append_eq_append_drop, Nat.sub_eq_zero_of_le (by omega), List.drop_zero]
  rw [hdrop] at hpre
  have hXne : P.drop j ≠ [] := by
    apply List.ne_nil_of_length_pos
    rw [List.length_drop]
    omega
  rcases List.prefix_or_prefix_of_prefix hpre (List.prefix_append (P.drop j) B) with hc | hc
  · exact findSub_none_spec hP j hc
  · have hXtake : P.drop j = pat.take (P.drop j).length := List.prefix_iff_eq_take.mp hc
    by_cases hXeq : (P.drop j).length = pat.length
    · have hXP : P.drop j = pat := List.IsPrefix.eq_of_length_le hc (by omega)
      exact findSub_none_spec hP j (hXP ▸ List.prefix_refl pat)
    · have hXlt : (P.drop j).length < pat.length :=
        lt_of_le_of_ne (List.IsPrefix.length_le hc) hXeq
      have hXpos : 0 < (P.drop j).length := List.length_pos.mpr hXne
      have hrest : pat.drop (P.drop j).length <+: B := by
        have hps : pat = P.drop j ++ pat.drop (P.drop j).length := by
          conv_lhs => rw [← List.take_append_drop (P.drop j).length pat]
          rw [← hXtake]
        rw [hps] at hpre
        obtain ⟨t, ht⟩ := hpre
        rw [List.append_assoc] at ht
        exact ⟨t, List.append_cancel_left ht⟩
      exact hspill (P.drop j).length hXpos hXlt
        (hXtake ▸ List.drop_suffix j P) hrest

/-- Appending occurrence-free lists is occurrence-free when no spill across
the junction is possible. -/
theorem findSub_append_none {pat A B : List Char}
    (hA : findSub pat A = none) (hB : findSub pat B = none)
    (hspill : ∀ m, 0 < m → m < pat.length → pat.take m <:+ A → ¬ pat.drop m <+: B) :
    findSub pat (A ++ B) = none := by
  apply findSub_none_intro
  intro j
  by_cases hj : j < A.length
  · exact no_occurrence_in_left_part hA hspill j hj
  · have hdrop : (A ++ B).drop j = B.drop (j - A.length) := by
      rw [List.drop_append_eq_append_drop, List.drop_eq_nil_of_le (by omega),
        List.nil_append]
    rw [hdrop]
    exact findSub_none_spec hB _

/-- First occurrence in `P ++ B` when `pat` heads `B`, `P` is occurrence-free
and no spill across the junction is possible. -/
theorem findSub_append_some {pat P B : List Char}
    (hB : pat <+: B) (hP : findSub pat P = none)
    (hspill : ∀ m, 0 < m → m < pat.length → pat.take m <:+ P → ¬ pat.drop m <+: B) :
    findSub pat (P ++ B) = some P.length := by
  apply findSub_some_intro
  · rw [List.drop_left]
    exact hB
  · exact no_occurrence_in_left_part hP hspill

theorem findSub_none_take {pat A : List Char} {n : Nat}
    (hA : findSub pat A = none) : findSub pat (A.take n) = none := by
  apply findSub_none_intro
  intro j hpre
  have h1 : (A.take n).drop j = (A.drop j).take (n - j) := by
    rw [List.drop_take]
  rw [h1] at hpre
  exact findSub_none_spec hA j (hpre.trans (List.take_prefix _ _))

theorem findSub_none_drop {pat A : List Char} {n : Nat}
    (hA : findSub pat A = none) : findSub pat (A.drop n) = none := by
  apply findSub_none_intro
  intro j hpre
  rw [List.drop_drop] at hpre
  exact findSub_none_spec hA (n + j) hpre

theorem findSub_none_of_minimal {pat A : List Char} {i : Nat} (hpat : pat ≠ [])
    (hmin : ∀ j, j < i → ¬ pat <+: A.drop j) :
    findSub pat (A.take i) = none := by
  apply findSub_none_intro
  intro j hpre
  by_cases hj : j < i
  · have h1 : (A.take i).drop j = (A.drop j).take (i - j) := by rw [List.drop_take]
    rw [h1] at hpre
    exact hmin j hj (hpre.trans (List.take_prefix _ _))
  · have h1 : (A.take i).drop j = [] := by
      apply List.drop_eq_nil_of_le
      rw [List.length_take]
      have hij : i ≤ j := by omega
      exact le_trans (min_le_left _ _) hij
    rw [h1] at hpre
    exact hpat (List.prefix_nil.mp hpre)

/-! ## Lemma kit: `dropToEol` / `takeToEol` / `getSubstitution` -/

theorem dropToEol_append_of_not_mem {l : List Char} (s : List Char) (h : noLineTerm l) :
    dropToEol (l ++ s) = dropToEol s := by
  induction l with
  | nil => rfl
  | cons c t ih =>
    have hc : isLineTerm c = false := h c (List.mem_cons_self c t)
    rw [List.cons_append]
    show (if isLineTerm c then c :: (t ++ s) else dropToEol (t ++ s)) = dropToEol s
    rw [if_neg (by rw [hc]; decide)]
    exact ih (fun c' hm => h c' (List.mem_cons_of_mem c hm))

theorem dropToEol_of_not_mem {l : List Char} (h : noLineTerm l) : dropToEol l = [] := by
  have h1 := dropToEol_append_of_not_mem [] h
  simpa using h1

theorem dropToEol_cons_term {c : Char} (s : List Char) (h : isLineTerm c = true) :
    dropToEol (c :: s) = c :: s := by
  show (if isLineTerm c then c :: s else dropToEol s) = c :: s
  rw [if_pos h]

theorem dropToEol_cons_newline (s : List Char) : dropToEol ('\n' :: s) = '\n' :: s :=
  dropToEol_cons_term s (by decide)

theorem dropToEol_shape (s : List Char) :
    dropToEol s = [] ∨ ∃ c t, isLineTerm c = true ∧ dropToEol s = c :: t := by
  induction s with
  | nil => exact Or.inl rfl
  | cons c t ih =>
    by_cases hc : isLineTerm c = true
    · exact Or.inr ⟨c, t, hc, dropToEol_cons_term t hc⟩
    · have hstep : dropToEol (c :: t) = dropToEol t := by
        show (if isLineTerm c then c :: t else dropToEol t) = dropToEol t
        rw [if_neg hc]
      rw [hstep]
      exact ih

theorem dropToEol_eq_drop (s : List Char) : ∃ m, dropToEol s = s.drop m := by
  induction s with
  | nil => exact ⟨0, rfl⟩
  | cons c t ih =>
    by_cases hc : isLineTerm c = true
    · exact ⟨0, by rw [dropToEol_cons_term t hc]; rfl⟩
    · obtain ⟨m, hm⟩ := ih
      refine ⟨m + 1, ?_⟩
      show (if isLineTerm c then c :: t else dropToEol t) = (c :: t).drop (m + 1)
      rw [if_neg hc, List.drop_succ_cons]
      exact hm

theorem takeToEol_append_dropToEol (s : List Char) :
    takeToEol s ++ dropToEol s = s := by
  induction s with
  | nil => rfl
  | cons c t ih =>
    by_cases hc : isLineTerm c = true
    · have h1 : takeToEol (c :: t) = [] := by
        show List.takeWhile (fun c => !(isLineTerm c)) (c :: t) = []
        rw [List.takeWhile_cons, if_neg (by rw [hc]; decide)]
      rw [h1, dropToEol_cons_term t hc, List.nil_append]
    · have hcf : isLineTerm c = false := by
        cases hb : isLineTerm c with
        | false => rfl
        | true => exact absurd hb hc
      have h1 : takeToEol (c :: t) = c :: takeToEol t := by
        show List.takeWhile (fun c => !(isLineTerm c)) (c :: t) = c :: takeToEol t
        rw [List.takeWhile_cons, if_pos (by rw [hcf]; decide)]
        rfl
      have h2 : dropToEol (c :: t) = dropToEol t := by
        show (if isLineTerm c then c :: t else dropToEol t) = dropToEol t
        rw [if_neg hc]
      rw [h1, h2, List.cons_append]
      exact congrArg (List.cons c) ih

theorem getSubstitution_cons_of_ne (matched bef aft : List Char) {c : Char}
    (t : List Char) (hc : ¬ c = '$') :
    getSubstitution matched bef aft (c :: t) = c :: getSubstitution matched bef aft t := by
  rw [getSubstitution.eq_def]
  split
  · rename_i heq
    cases heq
  · rename_i c2 t2 heq
    injection heq with h1 h2
    subst h1
    subst h2
    rw [if_neg hc]

theorem getSubstitution_of_no_dollar (matched bef aft : List Char) {r : List Char}
    (h : '$' ∉ r) : getSubstitution matched bef aft r = r := by
  induction r with
  | nil => rfl
  | cons c t ih =>
    have hc : ¬ c = '$' := fun hce => h (hce ▸ List.mem_cons_self c t)
    rw [getSubstitution_cons_of_ne matched bef aft t hc]
    exact congrArg (List.cons c) (ih (fun hm => h (List.mem_cons_of_mem c hm)))

theorem newline_not_mem_of_noLT {l : List Char} (h : noLineTerm l) : '\n' ∉ l :=
  fun hm => absurd (h '\n' hm) (by decide)

theorem lineTerm_ne_dash {c : Char} (h : isLineTerm c = true) : c ≠ '-' := by
  intro he
  subst he
  exact absurd h (by decide)

/-! ## Lemma kit: concrete facts about the marker constants -/

theorem nlDash_ne_nil : nlDash ≠ [] := by decide

theorem urlKey_ne_nil : urlKey ≠ [] := by decide

theorem newline_not_mem_urlKey : '\n' ∉ urlKey := by decide

theorem urlKey_no_border : ∀ m, m < 17 → 0 < m → ¬ (urlKey.drop m) <+: urlKey := by decide

theorem nlDash_no_border : ∀ m, m < 4 → 0 < m → ¬ (nlDash.drop m) <+: nlDash := by decide

theorem urlKey_no_border_len :
    ∀ m, m < urlKey.length → 0 < m → ¬ (urlKey.drop m) <+: urlKey := urlKey_no_border

theorem nlDash_no_border_len :
    ∀ m, m < nlDash.length → 0 < m → ¬ (nlDash.drop m) <+: nlDash := nlDash_no_border

theorem nlDash_drop_dash {m : Nat} (h1 : 0 < m) (h2 : m < 4) :
    ∃ t, nlDash.drop m = '-' :: t := by
  interval_cases m
  · exact ⟨['-', '-'], rfl⟩
  · exact ⟨['-'], rfl⟩
  · exact ⟨[], rfl⟩

theorem dash3_drop_lt {m : Nat} (h : m < 3) : ∃ t, dash3.drop m = '-' :: t := by
  interval_cases m
  · exact ⟨['-', '-'], rfl⟩
  · exact ⟨['-'], rfl⟩
  · exact ⟨[], rfl⟩

theorem noLT_urlKey : noLineTerm urlKey := by decide

theorem noLT_keyLine {url : List Char} (h : noLineTerm url) : noLineTerm (keyLine url) := by
  intro c hm
  rw [keyLine] at hm
  rcases List.mem_append.mp hm with h1 | h1
  · exact noLT_urlKey c h1
  · rcases List.mem_cons.mp h1 with h2 | h1
    · subst h2
      decide
    · rcases List.mem_cons.mp h1 with h2 | h1
      · subst h2
        decide
      · rcases List.mem_append.mp h1 with h2 | h2
        · exact h c h2
        · have h3 : c = '"' := List.mem_singleton.mp h2
          subst h3
          decide

theorem newline_not_mem_keyLine {url : List Char} (h : noLineTerm url) :
    '\n' ∉ keyLine url :=
  newline_not_mem_of_noLT (noLT_keyLine h)

theorem dollar_not_mem_keyLine {url : List Char} (h : '$' ∉ url) :
    '$' ∉ keyLine url := by
  intro hm
  rw [keyLine] at hm
  rcases List.mem_append.mp hm with h1 | h1
  · exact absurd h1 (by decide)
  · rcases List.mem_cons.mp h1 with h2 | h1
    · exact absurd h2 (by decide)
    · rcases List.mem_cons.mp h1 with h2 | h1
      · exact absurd h2 (by decide)
      · rcases List.mem_append.mp h1 with h2 | h2
        · exact h h2
        · exact absurd (List.mem_singleton.mp h2) (by decide)

theorem keyLine_head (url : List Char) : ∃ t, keyLine url = 'g' :: t :=
  ⟨_, rfl⟩

/-! ## Lemma kit: spill refutations -/

theorem spill_self {pat W : List Char} {m : Nat}
    (hnb : ∀ m', m' < pat.length → 0 < m' → ¬ (pat.drop m') <+: pat)
    (h1 : 0 < m) (h2 : m < pat.length) (hpre : pat.drop m <+: pat ++ W) : False := by
  apply hnb m h2 h1
  apply prefix_of_append_le hpre
  rw [List.length_drop]
  omega

theorem spill_head {pat B : List Char} {m : Nat} {c : Char}
    (hpatc : c ∉ pat) (hBc : ∃ t, B = c :: t)
    (h2 : m < pat.length) (hpre : pat.drop m <+: B) : False := by
  obtain ⟨t, rfl⟩ := hBc
  cases hd : pat.drop m with
  | nil =>
    have hlen := congrArg List.length hd
    rw [List.length_drop] at hlen
    simp at hlen
    omega
  | cons d dt =>
    rw [hd] at hpre
    have hdc : d = c := head_eq_of_prefix_cons hpre
    have hdm : d ∈ pat := List.mem_of_mem_drop (hd ▸ List.mem_cons_self d dt)
    exact hpatc (hdc ▸ hdm)

theorem spill_nlDash {B : List Char} {m : Nat} {c : Char}
    (hBc : ∃ t, B = c :: t) (hc : c ≠ '-')
    (h1 : 0 < m) (h2 : m < nlDash.length) (hpre : nlDash.drop m <+: B) : False := by
  obtain ⟨t, rfl⟩ := hBc
  obtain ⟨dt, hdt⟩ := nlDash_drop_dash h1 (by simpa using h2)
  rw [hdt] at hpre
  exact hc (head_eq_of_prefix_cons hpre).symm

/-! ## Lemma kit: take/drop across appends, junction lemmas -/

theorem take_append_add (A B : List Char) (n : Nat) :
    (A ++ B).take (A.length + n) = A ++ B.take n := by
  rw [List.take_append_eq_append_take, List.take_of_length_le (by omega),
    Nat.add_sub_cancel_left]

theorem drop_append_add (A B : List Char) (n : Nat) :
    (A ++ B).drop (A.length + n) = B.drop n := by
  rw [List.drop_append_eq_append_drop, List.drop_eq_nil_of_le (by omega),
    List.nil_append, Nat.add_sub_cancel_left]

theorem findSub_zero_of_leading {pat s : List Char} (h : pat <+: s) :
    findSub pat s = some 0 :=
  findSub_some_intro (by simpa using h) (fun j hj => by omega)

theorem findSub_none_cons_newline {pat r : List Char}
    (hnl : '\n' ∉ pat) (hpat : pat ≠ []) (hr : findSub pat r = none) :
    findSub pat ('\n' :: r) = none := by
  apply findSub_none_intro
  intro j
  cases j with
  | zero =>
    intro hpre
    cases pat with
    | nil => exact hpat rfl
    | cons p pt =>
      have hph := head_eq_of_prefix_cons hpre
      exact hnl (hph ▸ List.mem_cons_self p pt)
  | succ j' =>
    intro hpre
    exact findSub_none_spec hr j' (by simpa using hpre)

theorem findSub_none_append_newline_cons {pat l r : List Char}
    (hnl : '\n' ∉ pat) (hpat : pat ≠ [])
    (hl : findSub pat l = none) (hr : findSub pat r = none) :
    findSub pat (l ++ '\n' :: r) = none := by
  apply findSub_append_none hl (findSub_none_cons_newline hnl hpat hr)
  intro m h1 h2 hsuf hpre
  exact spill_head hnl ⟨r, rfl⟩ h2 hpre

theorem findSub_some_append_newline_cons {pat l r : List Char} {k : Nat}
    (hnl : '\n' ∉ pat) (hpat : pat ≠ [])
    (hl : findSub pat l = none) (hr : findSub pat r = some k) :
    findSub pat (l ++ '\n' :: r) = some (l.length + 1 + k) := by
  apply findSub_some_intro
  · have hdrop : (l ++ '\n' :: r).drop (l.length + 1 + k) = r.drop k := by
      have h1 : l.length + 1 + k = l.length + (1 + k) := by omega
      rw [h1, drop_append_add, Nat.add_comm 1 k, List.drop_succ_cons]
    rw [hdrop]
    exact (findSub_some_spec hr).1
  · intro j hj
    by_cases hjl : j < l.length
    · refine no_occurrence_in_left_part hl ?_ j hjl
      intro m h1 h2 hsuf hpre
      exact spill_head hnl ⟨r, rfl⟩ h2 hpre
    · intro hpre
      have hdrop : (l ++ '\n' :: r).drop j = ('\n' :: r).drop (j - l.length) := by
        rw [List.drop_append_eq_append_drop, List.drop_eq_nil_of_le (by omega),
          List.nil_append]
      rw [hdrop] at hpre
      cases hq : j - l.length with
      | zero =>
        rw [hq] at hpre
        cases pat with
        | nil => exact hpat rfl
        | cons p pt =>
          have hph := head_eq_of_prefix_cons hpre
          exact hnl (hph ▸ List.mem_cons_self p pt)
      | succ q =>
        rw [hq, List.drop_succ_cons] at hpre
        exact (findSub_some_spec hr).2 q (by omega) hpre

/-! ## Lemma kit: `fmSplit` characterization -/

theorem marker_drop4 (X : List Char) : (fmMarker ++ X).drop 4 = X := by
  have h : fmMarker.length = 4 := rfl
  rw [← h, List.drop_left]

theorem fmSplit_recon {content fm af : List Char} (h : fmSplit content = some (fm, af)) :
    content = fm ++ nlDash ++ af ∧ ∃ T, fm = fmMarker ++ T ∧ findSub nlDash T = none := by
  unfold fmSplit at h
  split at h
  case isTrue hp =>
    cases hk : findSub nlDash (content.drop 4) with
    | none => rw [hk] at h; cases h
    | some k =>
      rw [hk] at h
      cases h
      obtain ⟨hocc, hmin⟩ := findSub_some_spec hk
      rw [List.drop_drop] at hocc
      have hp' : fmMarker <+: content := List.isPrefixOf_iff_prefix.mp hp
      have hlen4 : 4 ≤ content.length := by
        have := hp'.length_le
        simpa using this
      have hk4 : 4 + k + 4 ≤ content.length := by
        have hocc_len := hocc.length_le
        rw [List.length_drop] at hocc_len
        have h4 : nlDash.length = 4 := rfl
        omega
      constructor
      · obtain ⟨r, hr⟩ := hocc
        have hr2 : r = content.drop (4 + k + 4) := by
          have hcd := congrArg (List.drop 4) hr
          have h4 : nlDash.length = 4 := rfl
          rw [← h4, List.drop_left, h4, List.drop_drop] at hcd
          rw [hcd]
        calc content
            = content.take (4 + k) ++ content.drop (4 + k) := (List.take_append_drop _ _).symm
          _ = content.take (4 + k) ++ (nlDash ++ r) := by rw [hr]
          _ = content.take (4 + k) ++ nlDash ++ content.drop (4 + k + 4) := by
              rw [hr2, List.append_assoc]
      · refine ⟨(content.drop 4).take k, ?_, ?_⟩
        · have htake4 : content.take 4 = fmMarker := by
            have := List.prefix_iff_eq_take.mp hp'
            exact this.symm
          rw [List.take_add, htake4]
        · exact findSub_none_of_minimal nlDash_ne_nil hmin
  case isFalse => cases h


theorem fmSplit_append {A B : List Char} (hA : fmMarker <+: A)
    (hnone : findSub nlDash (A.drop 4) = none) :
    fmSplit (A ++ nlDash ++ B) = some (A, B) := by
  have hlen4 : 4 ≤ A.length := by
    have := hA.length_le
    simpa using this
  have hassoc : A ++ nlDash ++ B = A ++ (nlDash ++ B) := List.append_assoc A nlDash B
  have hdrop4 : (A ++ (nlDash ++ B)).drop 4 = A.drop 4 ++ (nlDash ++ B) := by
    rw [List.drop_append_eq_append_drop, Nat.sub_eq_zero_of_le (by omega), List.drop_zero]
  have hfind : findSub nlDash ((A ++ (nlDash ++ B)).drop 4) = some (A.length - 4) := by
    rw [hdrop4]
    have hres := findSub_append_some (List.prefix_append nlDash B) hnone
      (fun m h1 h2 hsuf hpre => spill_self nlDash_no_border_len h1 h2 hpre)
    rw [hres, List.length_drop]
  unfold fmSplit
  rw [hassoc, if_pos (List.isPrefixOf_iff_prefix.mpr (hA.trans (List.prefix_append A _))),
    hfind]
  have hA4 : 4 + (A.length - 4) = A.length := by omega
  have htake : (A ++ (nlDash ++ B)).take (4 + (A.length - 4)) = A := by
    rw [hA4, List.take_left]
  have hdrop : (A ++ (nlDash ++ B)).drop (4 + (A.length - 4) + 4) = B := by
    have heq : 4 + (A.length - 4) + 4 = A.length + 4 := by omega
    rw [heq, drop_append_add]
    have h4 : nlDash.length = 4 := rfl
    rw [← h4, List.drop_left]
  show some ((A ++ (nlDash ++ B)).take (4 + (A.length - 4)),
    (A ++ (nlDash ++ B)).drop (4 + (A.length - 4) + 4)) = some (A, B)
  rw [htake, hdrop]

/-! ## Lemma kit: joined frontmatter lines -/

theorem joinLines_cons {l : List Char} {M : List (List Char)} (h : M ≠ []) :
    joinLines (l :: M) = l ++ '\n' :: joinLines M := by
  cases M with
  | nil => cases h rfl
  | cons a t => rfl

theorem dash3_not_prefix_join {M : List (List Char)}
    (h : ∀ l ∈ M, '\n' ∉ l ∧ l.take 3 ≠ dash3) (hM : M ≠ []) :
    ¬ dash3 <+: joinLines M := by
  cases M with
  | nil => cases hM rfl
  | cons l ls =>
    intro hpre
    cases ls with
    | nil =>
      have h3 : l.take 3 = dash3 := by
        have ht := List.prefix_iff_eq_take.mp hpre
        exact ht.symm
      exact (h l (List.mem_cons_self l [])).2 h3
    | cons a t =>
      rw [joinLines_cons (by simp)] at hpre
      rcases List.prefix_or_prefix_of_prefix hpre
        (List.prefix_append l ('\n' :: joinLines (a :: t))) with hc | hc
      · have h3 : l.take 3 = dash3 := (List.prefix_iff_eq_take.mp hc).symm
        exact (h l (List.mem_cons_self l _)).2 h3
      · by_cases hleq : l.length = dash3.length
        · have hld : l = dash3 := List.IsPrefix.eq_of_length_le hc (by omega)
          have h3 : l.take 3 = dash3 := by rw [hld]; rfl
          exact (h l (List.mem_cons_self l _)).2 h3
        · have hlt : l.length < 3 := by
            have hle := hc.length_le
            have h3 : dash3.length = 3 := rfl
            omega
          have hl3 : l = dash3.take l.length := List.prefix_iff_eq_take.mp hc
          have hrest : dash3.drop l.length <+: '\n' :: joinLines (a :: t) := by
            have hps : dash3 = l ++ dash3.drop l.length := by
              conv_lhs => rw [← List.take_append_drop l.length dash3]
              rw [← hl3]
            rw [hps] at hpre
            obtain ⟨r, hr⟩ := hpre
            rw [List.append_assoc] at hr
            exact ⟨r, List.append_cancel_left hr⟩
          obtain ⟨dt, hdt⟩ := dash3_drop_lt hlt
          rw [hdt] at hrest
          exact absurd (head_eq_of_prefix_cons hrest) (by decide)

theorem findSub_nlDash_cons_newline {r : List Char}
    (hr : findSub nlDash r = none) (hd : ¬ dash3 <+: r) :
    findSub nlDash ('\n' :: r) = none := by
  apply findSub_none_intro
  intro j
  cases j with
  | zero =>
    intro hpre
    apply hd
    obtain ⟨t, ht⟩ := hpre
    have ht2 : '\n' :: (dash3 ++ t) = '\n' :: r := ht
    have ht3 : dash3 ++ t = r := by
      injection ht2
    exact ⟨t, ht3⟩
  | succ j' =>
    intro hpre
    exact findSub_none_spec hr j' (by simpa using hpre)

theorem findSub_nlDash_join {lines : List (List Char)}
    (h : ∀ l ∈ lines, '\n' ∉ l ∧ l.take 3 ≠ dash3) :
    findSub nlDash (joinLines lines) = none := by
  induction lines with
  | nil => decide
  | cons l ls ih =>
    cases ls with
    | nil =>
      show findSub nlDash l = none
      exact findSub_none_of_head_notMem (h l (List.mem_cons_self l [])).1
    | cons a t =>
      rw [joinLines_cons (by simp)]
      apply findSub_append_none
      · exact findSub_none_of_head_notMem (h l (List.mem_cons_self l _)).1
      · apply findSub_nlDash_cons_newline
        · exact ih (fun l' hl' => h l' (List.mem_cons_of_mem l hl'))
        · exact dash3_not_prefix_join
            (fun l' hl' => h l' (List.mem_cons_of_mem l hl')) (by simp)
      · intro m h1 h2 hsuf hpre
        exact spill_nlDash ⟨joinLines (a :: t), rfl⟩ (by decide) h1 h2 hpre

theorem findSub_join_none {pat : List Char} {lines : List (List Char)}
    (hnl : '\n' ∉ pat) (hpat : pat ≠ [])
    (h : ∀ l ∈ lines, findSub pat l = none) :
    findSub pat (joinLines lines) = none := by
  induction lines with
  | nil =>
    apply findSub_none_intro
    intro j hpre
    have hj0 : joinLines ([] : List (List Char)) = [] := rfl
    rw [hj0, List.drop_nil] at hpre
    exact hpat (List.prefix_nil.mp hpre)
  | cons l ls ih =>
    cases ls with
    | nil => exact h l (List.mem_cons_self l [])
    | cons a t =>
      rw [joinLines_cons (by simp)]
      exact findSub_none_append_newline_cons hnl hpat (h l (List.mem_cons_self l _))
        (ih (fun l' hl' => h l' (List.mem_cons_of_mem l hl')))

theorem urlKey_prefix_join_key {rest : List Char} {post : List (List Char)} :
    urlKey <+: joinLines ((urlKey ++ rest) :: post) := by
  cases post with
  | nil => exact List.prefix_append urlKey rest
  | cons a t =>
    rw [joinLines_cons (by simp), List.append_assoc]
    exact List.prefix_append urlKey _

theorem findSub_urlKey_join_pos {pre : List (List Char)} {rest : List Char}
    {post : List (List Char)}
    (hpre : ∀ l ∈ pre, '\n' ∉ l ∧ findSub urlKey l = none) :
    findSub urlKey (joinLines (pre ++ (urlKey ++ rest) :: post)) = some (linePos pre) := by
  induction pre with
  | nil => exact findSub_zero_of_leading urlKey_prefix_join_key
  | cons l pre' ih =>
    have hM : (pre' ++ (urlKey ++ rest) :: post) ≠ [] := by simp
    have hcons : (l :: pre') ++ (urlKey ++ rest) :: post
        = l :: (pre' ++ (urlKey ++ rest) :: post) := rfl
    rw [hcons, joinLines_cons hM]
    rw [findSub_some_append_newline_cons newline_not_mem_urlKey urlKey_ne_nil
      (hpre l (List.mem_cons_self l _)).2
      (ih (fun l' hl' => hpre l' (List.mem_cons_of_mem l hl')))]
    rfl

theorem replace_join {pre : List (List Char)} {rest newLine : List Char}
    {post : List (List Char)}
    (hpre : ∀ l ∈ pre, '\n' ∉ l) (hrest : noLineTerm rest) :
    (joinLines (pre ++ (urlKey ++ rest) :: post)).take (linePos pre) ++ newLine ++
      dropToEol ((joinLines (pre ++ (urlKey ++ rest) :: post)).drop (linePos pre))
      = joinLines (pre ++ newLine :: post) := by
  induction pre with
  | nil =>
    have hkeynl : noLineTerm (urlKey ++ rest) := by
      intro c hm
      rcases List.mem_append.mp hm with h1 | h1
      · exact noLT_urlKey c h1
      · exact hrest c h1
    have hp0 : linePos [] = 0 := rfl
    rw [List.nil_append, List.nil_append, hp0, List.take_zero, List.drop_zero,
      List.nil_append]
    cases post with
    | nil =>
      show newLine ++ dropToEol (urlKey ++ rest) = joinLines [newLine]
      rw [dropToEol_of_not_mem hkeynl, List.append_nil]
      rfl
    | cons a t =>
      have hnn : (a :: t : List (List Char)) ≠ [] := by simp
      rw [joinLines_cons hnn, joinLines_cons hnn,
        dropToEol_append_of_not_mem _ hkeynl, dropToEol_cons_newline]
  | cons l pre' ih =>
    have hM : pre' ++ (urlKey ++ rest) :: post ≠ [] := by simp
    have hM2 : pre' ++ newLine :: post ≠ [] := by simp
    have hcons1 : (l :: pre') ++ (urlKey ++ rest) :: post
        = l :: (pre' ++ (urlKey ++ rest) :: post) := rfl
    have hcons2 : (l :: pre') ++ newLine :: post
        = l :: (pre' ++ newLine :: post) := rfl
    rw [hcons1, hcons2, joinLines_cons hM, joinLines_cons hM2]
    have hply : linePos (l :: pre') = l.length + (1 + linePos pre') := by
      show l.length + 1 + linePos pre' = _
      omega
    rw [hply, take_append_add, drop_append_add, Nat.add_comm 1 (linePos pre'),
      List.take_succ_cons, List.drop_succ_cons]
    have ihx := ih (fun l' hl' => hpre l' (List.mem_cons_of_mem l hl'))
    calc (l ++ '\n' :: (joinLines (pre' ++ (urlKey ++ rest) :: post)).take (linePos pre'))
          ++ newLine ++
          dropToEol ((joinLines (pre' ++ (urlKey ++ rest) :: post)).drop (linePos pre'))
        = l ++ '\n' ::
            ((joinLines (pre' ++ (urlKey ++ rest) :: post)).take (linePos pre') ++ newLine ++
             dropToEol ((joinLines (pre' ++ (urlKey ++ rest) :: post)).drop (linePos pre'))) := by
          simp [List.append_assoc, List.cons_append]
      _ = l ++ '\n' :: joinLines (pre' ++ newLine :: post) := by rw [ihx]

/-! ## Lemma kit: reduction of `buildUpdatedFrontmatter` by branch -/

theorem buildUpdated_eq_none {content url : List Char} (h : fmSplit content = none) :
    buildUpdatedFrontmatter content url
      = fmMarker ++ keyLine url ++ nlDash ++ '\n' :: content := by
  unfold buildUpdatedFrontmatter
  rw [h]

theorem buildUpdated_eq_add {content url fm af : List Char}
    (h : fmSplit content = some (fm, af)) (hk : findSub urlKey fm = none) :
    buildUpdatedFrontmatter content url = (fm ++ '\n' :: keyLine url) ++ nlDash ++ af := by
  unfold buildUpdatedFrontmatter
  rw [h]
  show (match findSub urlKey fm with
    | some i =>
      fm.take i
        ++ getSubstitution (takeToEol (fm.drop i)) (fm.take i) (dropToEol (fm.drop i))
            (keyLine url)
        ++ dropToEol (fm.drop i)
    | none => fm ++ '\n' :: keyLine url) ++ nlDash ++ af = _
  rw [hk]

theorem buildUpdated_eq_replace {content url fm af : List Char} {i : Nat}
    (h : fmSplit content = some (fm, af)) (hk : findSub urlKey fm = some i) :
    buildUpdatedFrontmatter content url
      = (fm.take i
          ++ getSubstitution (takeToEol (fm.drop i)) (fm.take i) (dropToEol (fm.drop i))
              (keyLine url)
          ++ dropToEol (fm.drop i)) ++ nlDash ++ af := by
  unfold buildUpdatedFrontmatter
  rw [h]
  show (match findSub urlKey fm with
    | some i =>
      fm.take i
        ++ getSubstitution (takeToEol (fm.drop i)) (fm.take i) (dropToEol (fm.drop i))
            (keyLine url)
        ++ dropToEol (fm.drop i)
    | none => fm ++ '\n' :: keyLine url) ++ nlDash ++ af = _
  rw [hk]

/-- With a `$`-free URL the string replacement expands to itself, so the
replace branch inserts the key line literally. -/
theorem buildUpdated_eq_replace_no_dollar {content url fm af : List Char} {i : Nat}
    (h : fmSplit content = some (fm, af)) (hk : findSub urlKey fm = some i)
    (hd : '$' ∉ url) :
    buildUpdatedFrontmatter content url
      = (fm.take i ++ keyLine url ++ dropToEol (fm.drop i)) ++ nlDash ++ af := by
  rw [buildUpdated_eq_replace h hk,
    getSubstitution_of_no_dollar _ _ _ (dollar_not_mem_keyLine hd)]

/-! ## Lemma kit: `urlKey` occurrences behind the opening marker -/

theorem take_suffix_head_mem {pt P : List Char} {m : Nat} {c : Char}
    (hm : 0 < m) (hsuf : (c :: pt).take m <:+ P) : c ∈ P := by
  cases m with
  | zero => omega
  | succ m' =>
    rw [List.take_succ_cons] at hsuf
    exact hsuf.subset (List.mem_cons_self c _)

theorem findSub_urlKey_marker_append_none {X : List Char}
    (hX : findSub urlKey X = none) : findSub urlKey (fmMarker ++ X) = none := by
  apply findSub_append_none (by decide) hX
  intro m h1 h2 hsuf hpre
  exact absurd (take_suffix_head_mem h1 hsuf) (by decide)

theorem findSub_urlKey_marker_append_some {X : List Char} {k : Nat}
    (hX : findSub urlKey X = some k) :
    findSub urlKey (fmMarker ++ X) = some (4 + k) := by
  apply findSub_some_intro
  · have hdrop : (fmMarker ++ X).drop (4 + k) = X.drop k := by
      have h4 : fmMarker.length = 4 := rfl
      rw [← h4, drop_append_add]
    rw [hdrop]
    exact (findSub_some_spec hX).1
  · intro j hj
    by_cases hjm : j < 4
    · refine no_occurrence_in_left_part (by decide) ?_ j (by simpa using hjm)
      intro m h1 h2 hsuf hpre
      exact absurd (take_suffix_head_mem h1 hsuf) (by decide)
    · intro hpre
      have hdrop : (fmMarker ++ X).drop j = X.drop (j - 4) := by
        have h4 : fmMarker.length = 4 := rfl
        rw [List.drop_append_eq_append_drop, List.drop_eq_nil_of_le (by omega),
          List.nil_append, h4]
      rw [hdrop] at hpre
      exact (findSub_some_spec hX).2 (j - 4) (by omega) hpre

theorem dropToEol_idem (s : List Char) : dropToEol (dropToEol s) = dropToEol s := by
  rcases dropToEol_shape s with h | ⟨c, t, hc, h⟩
  · rw [h]
    rfl
  · rw [h, dropToEol_cons_term t hc]

/-! ## Lemma kit: re-application of the editor to each of its three outputs -/

theorem dash3_not_prefix_keyLine (url : List Char) : ¬ dash3 <+: keyLine url := by
  intro hpre
  obtain ⟨t2, ht2⟩ := keyLine_head url
  rw [ht2] at hpre
  exact absurd (head_eq_of_prefix_cons hpre) (by decide)

theorem buildUpdated_idem_case1 {content url : List Char} (hu : noLineTerm url)
    (hd : '$' ∉ url) :
    buildUpdatedFrontmatter (fmMarker ++ keyLine url ++ nlDash ++ '\n' :: content) url
      = fmMarker ++ keyLine url ++ nlDash ++ '\n' :: content := by
  have hsplit : fmSplit (fmMarker ++ keyLine url ++ nlDash ++ '\n' :: content)
      = some (fmMarker ++ keyLine url, '\n' :: content) := by
    apply fmSplit_append (List.prefix_append fmMarker (keyLine url))
    rw [marker_drop4]
    exact findSub_none_of_head_notMem (newline_not_mem_keyLine hu)
  have hfind : findSub urlKey (fmMarker ++ keyLine url) = some 4 :=
    findSub_urlKey_marker_append_some
      (findSub_zero_of_leading (List.prefix_append urlKey _))
  rw [buildUpdated_eq_replace_no_dollar hsplit hfind hd, marker_drop4]
  have htake : (fmMarker ++ keyLine url).take 4 = fmMarker := by
    have h4 : fmMarker.length = 4 := rfl
    rw [← h4, List.take_left]
  rw [htake, dropToEol_of_not_mem (noLT_keyLine hu), List.append_nil]

theorem buildUpdated_idem_case2 {T af url : List Char}
    (hT : findSub nlDash T = none) (hu : noLineTerm url) (hd : '$' ∉ url)
    (hkey : findSub urlKey (fmMarker ++ T) = none) :
    buildUpdatedFrontmatter (((fmMarker ++ T) ++ '\n' :: keyLine url) ++ nlDash ++ af) url
      = ((fmMarker ++ T) ++ '\n' :: keyLine url) ++ nlDash ++ af := by
  have hsplit : fmSplit (((fmMarker ++ T) ++ '\n' :: keyLine url) ++ nlDash ++ af)
      = some ((fmMarker ++ T) ++ '\n' :: keyLine url, af) := by
    apply fmSplit_append
    · exact (List.prefix_append fmMarker T).trans (List.prefix_append _ _)
    · have hd : ((fmMarker ++ T) ++ '\n' :: keyLine url).drop 4
          = T ++ '\n' :: keyLine url := by
        rw [List.append_assoc, marker_drop4]
      rw [hd]
      apply findSub_append_none hT
      · exact findSub_nlDash_cons_newline
          (findSub_none_of_head_notMem (newline_not_mem_keyLine hu))
          (dash3_not_prefix_keyLine url)
      · intro m h1 h2 hsuf hpre
        exact spill_nlDash ⟨keyLine url, rfl⟩ (by decide) h1 h2 hpre
  have hTkey : findSub urlKey T = none := by
    apply findSub_none_intro
    intro j hpre
    have := findSub_none_spec hkey (4 + j)
    have hd : (fmMarker ++ T).drop (4 + j) = T.drop j := by
      have h4 : fmMarker.length = 4 := rfl
      rw [← h4, drop_append_add]
    rw [hd] at this
    exact this hpre
  have hfind : findSub urlKey ((fmMarker ++ T) ++ '\n' :: keyLine url)
      = some ((fmMarker ++ T).length + 1) := by
    have hres := findSub_some_append_newline_cons newline_not_mem_urlKey urlKey_ne_nil
      hkey (findSub_zero_of_leading (List.prefix_append urlKey
        (' ' :: '"' :: (url ++ ['"']))))
    rw [show keyLine url = urlKey ++ ' ' :: '"' :: (url ++ ['"']) from rfl, hres]
  rw [buildUpdated_eq_replace_no_dollar hsplit hfind hd]
  have htake : ((fmMarker ++ T) ++ '\n' :: keyLine url).take ((fmMarker ++ T).length + 1)
      = (fmMarker ++ T) ++ ['\n'] := by
    rw [take_append_add, List.take_succ_cons, List.take_zero]
  have hdrop : ((fmMarker ++ T) ++ '\n' :: keyLine url).drop ((fmMarker ++ T).length + 1)
      = keyLine url := by
    rw [drop_append_add, List.drop_succ_cons, List.drop_zero]
  rw [htake, hdrop, dropToEol_of_not_mem (noLT_keyLine hu), List.append_nil]
  simp [List.append_assoc]

theorem take_left_of_length {A B : List Char} {n : Nat} (h : A.length = n) :
    (A ++ B).take n = A := by
  rw [← h, List.take_left]

theorem drop_left_of_length {A B : List Char} {n : Nat} (h : A.length = n) :
    (A ++ B).drop n = B := by
  rw [← h, List.drop_left]

theorem buildUpdated_idem_case3 {T af url : List Char} {i : Nat}
    (hT : findSub nlDash T = none) (hu : noLineTerm url) (hd : '$' ∉ url)
    (hkey : findSub urlKey (fmMarker ++ T) = some i) :
    buildUpdatedFrontmatter
      (((fmMarker ++ T).take i ++ keyLine url ++ dropToEol ((fmMarker ++ T).drop i))
        ++ nlDash ++ af) url
      = ((fmMarker ++ T).take i ++ keyLine url ++ dropToEol ((fmMarker ++ T).drop i))
        ++ nlDash ++ af := by
  obtain ⟨hocc, hmin⟩ := findSub_some_spec hkey
  have hi4 : 4 ≤ i := by
    by_contra hlt
    push_neg at hlt
    interval_cases i
    · exact absurd (head_eq_of_prefix_cons
        (show urlKey <+: '-' :: ('-' :: '-' :: '\n' :: T) from hocc)) (by decide)
    · exact absurd (head_eq_of_prefix_cons
        (show urlKey <+: '-' :: ('-' :: '\n' :: T) from hocc)) (by decide)
    · exact absurd (head_eq_of_prefix_cons
        (show urlKey <+: '-' :: ('\n' :: T) from hocc)) (by decide)
    · exact absurd (head_eq_of_prefix_cons
        (show urlKey <+: '\n' :: T from hocc)) (by decide)
  have hilen : i < (fmMarker ++ T).length := by
    by_contra hge
    push_neg at hge
    have hnil : (fmMarker ++ T).drop i = [] := List.drop_eq_nil_of_le hge
    rw [hnil] at hocc
    exact urlKey_ne_nil (List.prefix_nil.mp hocc)
  have hlen_take : ((fmMarker ++ T).take i).length = i := by
    rw [List.length_take]
    exact min_eq_left (by omega)
  have htake_eq : (fmMarker ++ T).take i = fmMarker ++ T.take (i - 4) := by
    have h4 : fmMarker.length = 4 := rfl
    have hi' : i = fmMarker.length + (i - 4) := by rw [h4]; omega
    conv_lhs => rw [hi']
    rw [take_append_add]
  have hDnone : findSub nlDash (dropToEol ((fmMarker ++ T).drop i)) = none := by
    obtain ⟨m, hm⟩ := dropToEol_eq_drop ((fmMarker ++ T).drop i)
    rw [hm, List.drop_drop]
    have hd : (fmMarker ++ T).drop (i + m) = T.drop (i + m - 4) := by
      have h4 : fmMarker.length = 4 := rfl
      rw [List.drop_append_eq_append_drop,
        List.drop_eq_nil_of_le (by rw [h4]; omega), List.nil_append, h4]
    rw [hd]
    exact findSub_none_drop hT
  have hsplit : fmSplit
      (((fmMarker ++ T).take i ++ keyLine url ++ dropToEol ((fmMarker ++ T).drop i))
        ++ nlDash ++ af)
      = some ((fmMarker ++ T).take i ++ keyLine url ++ dropToEol ((fmMarker ++ T).drop i),
          af) := by
    apply fmSplit_append
    · rw [htake_eq]
      exact ((List.prefix_append fmMarker (T.take (i - 4))).trans
        (List.prefix_append _ (keyLine url))).trans (List.prefix_append _ _)
    · rw [htake_eq]
      have hsh : (fmMarker ++ T.take (i - 4)) ++ keyLine url
            ++ dropToEol ((fmMarker ++ T).drop i)
          = fmMarker ++ (T.take (i - 4) ++ (keyLine url
            ++ dropToEol ((fmMarker ++ T).drop i))) := by
        simp [List.append_assoc]
      rw [hsh, marker_drop4]
      apply findSub_append_none (findSub_none_take hT)
      · apply findSub_append_none
          (findSub_none_of_head_notMem (newline_not_mem_keyLine hu)) hDnone
        intro m h1 h2 hsuf hpre
        rcases dropToEol_shape ((fmMarker ++ T).drop i) with hshp | ⟨c3, t3, hc3, hshp⟩
        · rw [hshp] at hpre
          have hnil := List.prefix_nil.mp hpre
          have hlen := congrArg List.length hnil
          rw [List.length_drop] at hlen
          simp at hlen
          have h2' : m < 4 := by simpa using h2
          omega
        · exact spill_nlDash ⟨t3, hshp⟩ (lineTerm_ne_dash hc3) h1 h2 hpre
      · intro m h1 h2 hsuf hpre
        obtain ⟨kt, hkt⟩ := keyLine_head url
        have hBc : keyLine url ++ dropToEol ((fmMarker ++ T).drop i)
            = 'g' :: (kt ++ dropToEol ((fmMarker ++ T).drop i)) := by
          rw [hkt]
          rfl
        exact spill_nlDash ⟨_, hBc⟩ (by decide) h1 h2 hpre
  have hkey_pref : urlKey <+: keyLine url ++ dropToEol ((fmMarker ++ T).drop i) := by
    rw [show keyLine url = urlKey ++ (' ' :: '"' :: (url ++ ['"'])) from rfl,
      List.append_assoc]
    exact List.prefix_append urlKey _
  have hP : findSub urlKey ((fmMarker ++ T).take i) = none :=
    findSub_none_of_minimal urlKey_ne_nil hmin
  have hshape : keyLine url ++ dropToEol ((fmMarker ++ T).drop i)
      = urlKey ++ ((' ' :: '"' :: (url ++ ['"']))
        ++ dropToEol ((fmMarker ++ T).drop i)) := by
    rw [show keyLine url = urlKey ++ (' ' :: '"' :: (url ++ ['"'])) from rfl,
      List.append_assoc]
  have hres := findSub_append_some hkey_pref hP
    (fun m h1 h2 hsuf hpre => spill_self urlKey_no_border_len h1 h2 (hshape ▸ hpre))
  have hfind : findSub urlKey
      ((fmMarker ++ T).take i ++ keyLine url ++ dropToEol ((fmMarker ++ T).drop i))
      = some i := by
    rw [List.append_assoc, hres, hlen_take]
  rw [buildUpdated_eq_replace_no_dollar hsplit hfind hd]
  have hO1take : ((fmMarker ++ T).take i ++ keyLine url
      ++ dropToEol ((fmMarker ++ T).drop i)).take i = (fmMarker ++ T).take i := by
    rw [List.append_assoc]
    exact take_left_of_length hlen_take
  have hO1drop : ((fmMarker ++ T).take i ++ keyLine url
      ++ dropToEol ((fmMarker ++ T).drop i)).drop i
      = keyLine url ++ dropToEol ((fmMarker ++ T).drop i) := by
    rw [List.append_assoc]
    exact drop_left_of_length hlen_take
  rw [hO1take, hO1drop, dropToEol_append_of_not_mem _ (noLT_keyLine hu),
    dropToEol_idem]

/-! ## Lemma kit: key sets of the settings merge -/

theorem hasKey_append (r1 r2 : SettingsRecord) (k : String) :
    hasKey (r1 ++ r2) k = (hasKey r1 k || hasKey r2 k) := by
  induction r1 with
  | nil => rfl
  | cons kv t ih =>
    obtain ⟨k', v⟩ := kv
    show (k' == k || hasKey (t ++ r2) k) = ((k' == k || hasKey t k) || hasKey r2 k)
    rw [ih, Bool.or_assoc]

theorem hasKey_cons (x : String × JVal) (rest : SettingsRecord) (k : String) :
    hasKey (x :: rest) k = (x.1 == k || hasKey rest k) := by
  obtain ⟨a, b⟩ := x
  rfl

theorem hasKey_map_assign (base overlay : SettingsRecord) (k : String) :
    hasKey (base.map (fun kv =>
      match lookupVal overlay kv.1 with
      | some v => (kv.1, v)
      | none => kv)) k = hasKey base k := by
  induction base with
  | nil => rfl
  | cons kv t ih =>
    obtain ⟨k', v⟩ := kv
    rw [List.map_cons, hasKey_cons, hasKey_cons]
    have hfst : ((fun (kv : String × JVal) =>
        match lookupVal overlay kv.1 with
        | some v => (kv.1, v)
        | none => kv) (k', v)).1 = k' := by
      show ((match lookupVal overlay k' with
        | some v2 => ((k', v).1, v2)
        | none => (k', v) : String × JVal)).1 = k'
      cases lookupVal overlay k' <;> rfl
    rw [hfst, ih]

theorem hasKey_filter_overlay (base overlay : SettingsRecord) (k : String)
    (hb : hasKey base k = false) :
    hasKey (overlay.filter (fun kv => !(hasKey base kv.1))) k = hasKey overlay k := by
  induction overlay with
  | nil => rfl
  | cons kv t ih =>
    obtain ⟨k', v⟩ := kv
    by_cases hk' : k' = k
    · subst hk'
      rw [List.filter_cons, if_pos (by simp [hb])]
      show (k' == k' || _) = (k' == k' || hasKey t k')
      rw [ih]
    · rw [List.filter_cons]
      by_cases hkeep : (!(hasKey base k')) = true
      · rw [if_pos hkeep]
        show (k' == k || _) = (k' == k || hasKey t k)
        rw [ih]
      · rw [if_neg hkeep, ih]
        show hasKey t k = (k' == k || hasKey t k)
        have hke : (k' == k) = false := by simp [hk']
        rw [hke, Bool.false_or]

theorem hasKey_objAssign (base overlay : SettingsRecord) (k : String) :
    hasKey (objAssign base overlay) k = (hasKey base k || hasKey overlay k) := by
  unfold objAssign
  rw [hasKey_append, hasKey_map_assign]
  cases hb : hasKey base k with
  | true => rw [Bool.true_or, Bool.true_or]
  | false =>
    rw [Bool.false_or, Bool.false_or]
    exact hasKey_filter_overlay base overlay k hb

theorem hasKey_deleteProjectId (r : SettingsRecord) (k : String) :
    hasKey (deleteProjectId r) k = (hasKey r k && !(k == "projectId")) := by
  induction r with
  | nil => simp [deleteProjectId, hasKey]
  | cons kv t ih =>
    obtain ⟨k', v⟩ := kv
    unfold deleteProjectId at ih ⊢
    rw [List.filter_cons]
    by_cases hk' : k' = "projectId"
    · rw [if_neg (by simp [hk'])]
      rw [ih]
      by_cases hkp : k = "projectId"
      · subst hkp
        simp
      · show _ = ((k' == k || hasKey t k) && !(k == "projectId"))
        have hke : (k' == k) = false := by
          subst hk'
          simp
          intro he
          exact hkp he.symm
        rw [hke, Bool.false_or]
    · rw [if_pos (by simp [hk'])]
      show (k' == k ||
        hasKey (t.filter (fun kv => !(kv.1 == "projectId"))) k)
        = ((k' == k || hasKey t k) && !(k == "projectId"))
      rw [ih]
      by_cases hkp : k = "projectId"
      · subst hkp
        have hke : (k' == "projectId") = false := by simp [hk']
        simp [hke]
      · have hnp : (!(k == "projectId")) = true := by simp [hkp]
        rw [hnp, Bool.and_true, Bool.and_true]

/-! ## Lemma kit: permutation property of the comparator sort -/

theorem insertByCmp_perm (cmp : GitLabProject → GitLabProject → Int)
    (x : GitLabProject) (l : List GitLabProject) :
    (insertByCmp cmp x l).Perm (x :: l) := by
  induction l with
  | nil => exact List.Perm.refl _
  | cons y ys ih =>
    show (if cmp x y ≤ 0 then x :: y :: ys else y :: insertByCmp cmp x ys).Perm (x :: y :: ys)
    by_cases h : cmp x y ≤ 0
    · rw [if_pos h]
    · rw [if_neg h]
      exact (ih.cons y).trans (List.Perm.swap x y ys)

theorem sortByCmp_perm (cmp : GitLabProject → GitLabProject → Int)
    (l : List GitLabProject) : (sortByCmp cmp l).Perm l := by
  induction l with
  | nil => exact List.Perm.refl _
  | cons x xs ih =>
    show (insertByCmp cmp x (sortByCmp cmp xs)).Perm (x :: xs)
    exact (insertByCmp_perm cmp x (sortByCmp cmp xs)).trans (ih.cons x)

/-! ## Claims -/

/-- C1 counterexample: the claim fails for truly arbitrary key-value lines.
The block line `note: see gitlab_issue_url: here` (key `note`, value
mentioning the key name) is present verbatim in the input but absent from the
editor's output: the replace rewrites that line from the first occurrence of
`gitlab_issue_url:` onward. -/
theorem c1_counterexample :
    containsSub (("note: see gitlab_issue_url: here").toList)
      (("---\nnote: see gitlab_issue_url: here\n---\nBody").toList) = true
    ∧ containsSub (("note: see gitlab_issue_url: here").toList)
        (buildUpdatedFrontmatter
          (("---\nnote: see gitlab_issue_url: here\n---\nBody").toList)
          (("https://g/1").toList)) = false := by
  constructor
  · decide
  · decide

/-- C1 (amended): for a document starting with a metadata block whose lines
contain no newline, do not begin with `---`, and — apart from a dedicated
`gitlab_issue_url` line — do not contain the substring `gitlab_issue_url:`,
and for a URL free of `$` (a string replacement expands `$`-patterns), the
editor preserves every other line verbatim and in order, only appends or
rewrites the single `gitlab_issue_url` line, and leaves the body after the
closing delimiter unchanged.  The first conjunct is the append case, the
second the rewrite case: the old key line is `gitlab_issue_url:` followed by
arbitrary text free of line terminators — the rewrite consumes the line only
up to its first line terminator, so a terminator-bearing tail would survive
in place. -/
theorem c1_amended (lines pre post : List (List Char)) (rest body url : List Char)
    (hlines : ∀ l ∈ lines, '\n' ∉ l ∧ l.take 3 ≠ dash3 ∧ findSub urlKey l = none)
    (hpre : ∀ l ∈ pre, '\n' ∉ l ∧ l.take 3 ≠ dash3 ∧ findSub urlKey l = none)
    (hpost : ∀ l ∈ post, '\n' ∉ l ∧ l.take 3 ≠ dash3)
    (hrest : noLineTerm rest) (hd : '$' ∉ url) :
    buildUpdatedFrontmatter (fmMarker ++ joinLines lines ++ nlDash ++ body) url
      = (fmMarker ++ joinLines lines ++ '\n' :: keyLine url) ++ nlDash ++ body
    ∧ buildUpdatedFrontmatter
        (fmMarker ++ joinLines (pre ++ (urlKey ++ rest) :: post) ++ nlDash ++ body) url
      = fmMarker ++ joinLines (pre ++ keyLine url :: post) ++ nlDash ++ body := by
  constructor
  · have hsplit : fmSplit (fmMarker ++ joinLines lines ++ nlDash ++ body)
        = some (fmMarker ++ joinLines lines, body) := by
      apply fmSplit_append (List.prefix_append _ _)
      rw [marker_drop4]
      exact findSub_nlDash_join (fun l hl => ⟨(hlines l hl).1, (hlines l hl).2.1⟩)
    have hnone : findSub urlKey (fmMarker ++ joinLines lines) = none :=
      findSub_urlKey_marker_append_none
        (findSub_join_none newline_not_mem_urlKey urlKey_ne_nil
          (fun l hl => (hlines l hl).2.2))
    rw [buildUpdated_eq_add hsplit hnone]
  · have hkeyline_cond : '\n' ∉ (urlKey ++ rest) ∧ (urlKey ++ rest).take 3 ≠ dash3 := by
      constructor
      · intro hm
        rcases List.mem_append.mp hm with h | h
        · exact newline_not_mem_urlKey h
        · exact newline_not_mem_of_noLT hrest h
      · intro he
        have h3 : (urlKey ++ rest).take 3 = ['g', 'i', 't'] := rfl
        rw [h3] at he
        exact absurd he (by decide)
    have hjoin_cond : ∀ l ∈ pre ++ (urlKey ++ rest) :: post,
        '\n' ∉ l ∧ l.take 3 ≠ dash3 := by
      intro l hl
      rcases List.mem_append.mp hl with h | h
      · exact ⟨(hpre l h).1, (hpre l h).2.1⟩
      · rcases List.mem_cons.mp h with h2 | h2
        · subst h2
          exact hkeyline_cond
        · exact hpost l h2
    have hsplit : fmSplit
        (fmMarker ++ joinLines (pre ++ (urlKey ++ rest) :: post) ++ nlDash ++ body)
        = some (fmMarker ++ joinLines (pre ++ (urlKey ++ rest) :: post), body) := by
      apply fmSplit_append (List.prefix_append _ _)
      rw [marker_drop4]
      exact findSub_nlDash_join hjoin_cond
    have hfind : findSub urlKey (fmMarker ++ joinLines (pre ++ (urlKey ++ rest) :: post))
        = some (4 + linePos pre) :=
      findSub_urlKey_marker_append_some
        (findSub_urlKey_join_pos (fun l hl => ⟨(hpre l hl).1, (hpre l hl).2.2⟩))
    rw [buildUpdated_eq_replace_no_dollar hsplit hfind hd]
    have htk : (fmMarker ++ joinLines (pre ++ (urlKey ++ rest) :: post)).take
          (4 + linePos pre)
        = fmMarker ++ (joinLines (pre ++ (urlKey ++ rest) :: post)).take (linePos pre) := by
      have h4 : fmMarker.length = 4 := rfl
      rw [← h4, take_append_add]
    have hdr : (fmMarker ++ joinLines (pre ++ (urlKey ++ rest) :: post)).drop
          (4 + linePos pre)
        = (joinLines (pre ++ (urlKey ++ rest) :: post)).drop (linePos pre) := by
      have h4 : fmMarker.length = 4 := rfl
      rw [← h4, drop_append_add]
    rw [htk, hdr]
    have hrj := @replace_join pre rest (keyLine url) post
      (fun l hl => (hpre l hl).1) hrest
    have hgoal : (fmMarker ++ (joinLines (pre ++ (urlKey ++ rest) :: post)).take
          (linePos pre)) ++ keyLine url
          ++ dropToEol ((joinLines (pre ++ (urlKey ++ rest) :: post)).drop (linePos pre))
        = fmMarker ++ joinLines (pre ++ keyLine url :: post) := by
      rw [List.append_assoc fmMarker, List.append_assoc fmMarker]
      exact congrArg (fmMarker ++ ·) hrj
    rw [hgoal]

/-- C1 witness: the amended theorem applied to a concrete block with one
ordinary line, and to a concrete block with a line before and a line after an
existing `gitlab_issue_url` line. -/
theorem c1_amended_witness :
    buildUpdatedFrontmatter (fmMarker ++ joinLines [("a: 1").toList] ++ nlDash
        ++ ("\nBody").toList) (("https://g/1").toList)
      = (fmMarker ++ joinLines [("a: 1").toList]
          ++ '\n' :: keyLine (("https://g/1").toList)) ++ nlDash ++ ("\nBody").toList
    ∧ buildUpdatedFrontmatter (fmMarker ++ joinLines ([("a: 1").toList]
        ++ (urlKey ++ (" \"old\"").toList) :: [("b: 2").toList]) ++ nlDash
        ++ ("\nBody").toList) (("https://g/1").toList)
      = fmMarker ++ joinLines ([("a: 1").toList]
          ++ keyLine (("https://g/1").toList) :: [("b: 2").toList])
        ++ nlDash ++ ("\nBody").toList :=
  c1_amended [("a: 1").toList] [("a: 1").toList] [("b: 2").toList]
    ((" \"old\"").toList) (("\nBody").toList) (("https://g/1").toList)
    (by decide) (by decide) (by decide) (by decide) (by decide)

/-- C2 counterexample: with a nonempty URL already recorded verbatim in the
frontmatter, the editor returns its input unchanged, so the output does not
differ from the input. -/
theorem c2_counterexample :
    buildUpdatedFrontmatter (("---\ngitlab_issue_url: \"U\"\n---\nB").toList)
        (("U").toList)
      = ("---\ngitlab_issue_url: \"U\"\n---\nB").toList
    ∧ (("U").toList : List Char) ≠ [] := by
  constructor
  · decide
  · decide

/-- C2 (amended): for every input document and every `$`-free URL (a `$` in
the URL is expanded as a substitution pattern by the string replacement), the
editor's output differs from its input except in the one case the
counterexample exhibits: a detected frontmatter whose first
`gitlab_issue_url:` occurrence already reads, up to its line's first line
terminator, exactly the key line the editor would write (`alreadyRecorded`). -/
theorem c2_amended (content url : List Char) (hd : '$' ∉ url)
    (h : alreadyRecorded content url = false) :
    buildUpdatedFrontmatter content url ≠ content := by
  intro he
  cases hsplit : fmSplit content with
  | none =>
    rw [buildUpdated_eq_none hsplit] at he
    have hlen := congrArg List.length he
    simp [keyLine, urlKey, fmMarker, nlDash, List.length_append] at hlen
    omega
  | some pr =>
    obtain ⟨fm, af⟩ := pr
    obtain ⟨hcontent, T, hfmT, hTnone⟩ := fmSplit_recon hsplit
    cases hfind : findSub urlKey fm with
    | none =>
      rw [buildUpdated_eq_add hsplit hfind, hcontent] at he
      have hlen := congrArg List.length he
      simp [keyLine, urlKey, List.length_append] at hlen
      omega
    | some i =>
      rw [buildUpdated_eq_replace_no_dollar hsplit hfind hd, hcontent] at he
      have hfm : fm = fm.take i ++ (takeToEol (fm.drop i) ++ dropToEol (fm.drop i)) := by
        rw [takeToEol_append_dropToEol, List.take_append_drop]
      have he2 : (fm.take i ++ keyLine url ++ dropToEol (fm.drop i)) ++ nlDash ++ af
          = (fm.take i ++ (takeToEol (fm.drop i) ++ dropToEol (fm.drop i)))
            ++ nlDash ++ af := by
        rw [← hfm]
        exact he
      simp only [List.append_assoc] at he2
      have h3 := List.append_cancel_left he2
      have h4 := List.append_cancel_right h3
      have hrec : alreadyRecorded content url = true := by
        unfold alreadyRecorded
        rw [hsplit]
        show (match findSub urlKey fm with
          | none => false
          | some i => takeToEol (fm.drop i) == keyLine url) = true
        rw [hfind]
        show (takeToEol (fm.drop i) == keyLine url) = true
        rw [← h4]
        simp
      rw [hrec] at h
      cases h

/-- C2 witness: the amended theorem at a document with no frontmatter and a
concrete URL. -/
theorem c2_amended_witness :
    buildUpdatedFrontmatter (("hello").toList) (("u").toList) ≠ ("hello").toList :=
  c2_amended (("hello").toList) (("u").toList) (by decide) (by decide)

/-- C3: the 100-page safety cap is only checked on the no-header path.  A
server whose every response carries an `X-Next-Page` header keeps the loop
running: after 101 requests (and likewise after any number of requests) the
loop has not terminated, so an execution exists that requests more than 100
pages — contradicting the claim's "in no execution does it request more than
100 pages" and the source comment's stated purpose of preventing infinite
loops. -/
theorem c3_cap_violation :
    fetchUserProjectsLoop loopingServer 101 1 0 = none := rfl

/-- C4: evaluation of the two orchestrator variants at a failed local write
after a successful creation.  The modular variant's `createIssueWithProgress`
emits the generic error notice, which does not contain the issue URL and is
not a distinct success-with-warning; `main.ts`'s `triggerIssueCreation` does
emit a notice containing the URL, showing the claimed behavior was the
intent. -/
theorem c4_write_failure_notice :
    containsSub (("https://gitlab.com/g/p/-/issues/7").toList)
      (createIssueWithProgressNotice (("https://gitlab.com/g/p/-/issues/7").toList)
        (some (("File write failed").toList))) = false
    ∧ createIssueWithProgressNotice (("https://gitlab.com/g/p/-/issues/7").toList)
        (some (("File write failed").toList))
      = progressErrorPrefix ++ ("File write failed").toList
    ∧ containsSub (("https://gitlab.com/g/p/-/issues/7").toList)
        (triggerIssueCreationNotice (some (("https://gitlab.com/g/p/-/issues/7").toList))
          true) = true := by
  refine ⟨by decide, rfl, by decide⟩

/-- C5 counterexample: `Object.assign` copies unknown keys from the saved
record, so a saved record with an extra `junk` field yields a merged result
that still has `junk` — the merged key set is not the defaults' key set
(though `projectId` itself is removed). -/
theorem c5_counterexample :
    hasKey (loadSettings (some [("junk", JVal.n 1), ("projectId", JVal.s ("5"))]))
      ("junk") = true
    ∧ hasKey getDefaultSettings ("junk") = false
    ∧ hasKey (loadSettings (some [("junk", JVal.n 1), ("projectId", JVal.s ("5"))]))
        ("projectId") = false := by
  refine ⟨by decide, by decide, by decide⟩

/-- C5 (amended): the merged result's key set is the union of the defaults'
keys and the saved record's keys minus `projectId`: every default key is
present, the deprecated `projectId` is removed, and unknown extra fields are
retained rather than dropped. -/
theorem c5_amended (saved : SettingsRecord) (k : String) :
    hasKey (loadSettings (some saved)) k
      = (hasKey getDefaultSettings k || (hasKey saved k && !(k == "projectId"))) := by
  unfold loadSettings
  rw [hasKey_objAssign, hasKey_deleteProjectId]

/-- C6 counterexample: a URL containing a newline breaks idempotence — the
first application writes the URL across two lines, and the second application
re-detects a shorter frontmatter and duplicates text. -/
theorem c6_counterexample :
    buildUpdatedFrontmatter
        (buildUpdatedFrontmatter [] (("a\nb").toList)) (("a\nb").toList)
      ≠ buildUpdatedFrontmatter [] (("a\nb").toList) := by
  decide

/-- C6 (amended): for every starting document and every URL free of line
terminators (LF, CR, LS, PS — a terminator splits the written key line, and a
CR makes the next rewrite stop short of the stored value's tail) and free of
`$` (expanded as a substitution pattern by the string replacement), applying
the editor twice with the same URL gives the same text as applying it once. -/
theorem c6_amended (content url : List Char) (hu : noLineTerm url) (hd : '$' ∉ url) :
    buildUpdatedFrontmatter (buildUpdatedFrontmatter content url) url
      = buildUpdatedFrontmatter content url := by
  cases hsplit : fmSplit content with
  | none =>
    rw [buildUpdated_eq_none hsplit]
    exact buildUpdated_idem_case1 hu hd
  | some pr =>
    obtain ⟨fm, af⟩ := pr
    obtain ⟨hcontent, T, hfmT, hTnone⟩ := fmSplit_recon hsplit
    subst hfmT
    cases hfind : findSub urlKey (fmMarker ++ T) with
    | none =>
      rw [buildUpdated_eq_add hsplit hfind]
      exact buildUpdated_idem_case2 hTnone hu hd hfind
    | some i =>
      rw [buildUpdated_eq_replace_no_dollar hsplit hfind hd]
      exact buildUpdated_idem_case3 hTnone hu hd hfind

/-- C6 witness: idempotence at a concrete document and URL. -/
theorem c6_amended_witness :
    buildUpdatedFrontmatter
        (buildUpdatedFrontmatter (("---\na: 1\n---\nBody").toList)
          (("https://g/1").toList)) (("https://g/1").toList)
      = buildUpdatedFrontmatter (("---\na: 1\n---\nBody").toList)
          (("https://g/1").toList) :=
  c6_amended (("---\na: 1\n---\nBody").toList) (("https://g/1").toList)
    (by decide) (by decide)

/-- C7 counterexample: the line `--- text` merely begins with `---` yet is
treated as the block's closing marker: the detection ends the match at its
first three dashes (leaving ` text` in the after-part), and the editor
inserts the key before that line instead of synthesizing a new block as the
claim predicts. -/
theorem c7_counterexample :
    fmSplit (("---\na: 1\n--- text\nBody").toList)
      = some (("---\na: 1").toList, (" text\nBody").toList)
    ∧ buildUpdatedFrontmatter (("---\na: 1\n--- text\nBody").toList) (("u").toList)
      = ("---\na: 1\ngitlab_issue_url: \"u\"\n--- text\nBody").toList
    ∧ buildUpdatedFrontmatter (("---\na: 1\n--- text\nBody").toList) (("u").toList)
      ≠ ("---\ngitlab_issue_url: \"u\"\n---\n").toList
        ++ ("---\na: 1\n--- text\nBody").toList := by
  refine ⟨by decide, by decide, by decide⟩

/-- C7 (amended): the detection matches from the start of the text through
the first newline followed by `---` — i.e. through the first subsequent line
that merely begins with three dashes.  For a block of ordinary lines followed
by a closing line `---<t>` with arbitrary newline-free remainder `t`, the
match consumes exactly the three dashes and leaves `t` and the rest of the
text as the after-part. -/
theorem c7_amended (lines : List (List Char)) (t body : List Char)
    (hlines : ∀ l ∈ lines, '\n' ∉ l ∧ l.take 3 ≠ dash3) (ht : '\n' ∉ t) :
    fmSplit (fmMarker ++ joinLines lines ++ nlDash ++ (t ++ '\n' :: body))
      = some (fmMarker ++ joinLines lines, t ++ '\n' :: body) := by
  apply fmSplit_append (List.prefix_append _ _)
  rw [marker_drop4]
  exact findSub_nlDash_join hlines

/-- C7 witness: the amended theorem at the block `a: 1` closed by the line
`--- text`. -/
theorem c7_amended_witness :
    fmSplit (fmMarker ++ joinLines [("a: 1").toList] ++ nlDash
        ++ ((" text").toList ++ '\n' :: ("Body").toList))
      = some (fmMarker ++ joinLines [("a: 1").toList],
          (" text").toList ++ '\n' :: ("Body").toList) :=
  c7_amended [("a: 1").toList] ((" text").toList) (("Body").toList)
    (by decide) (by decide)

/-- C8: the content transformer on the exact input
`---\na: 1\n---\nBody #tag [[Link]]` yields exactly ``Body `#tag` Link``:
the leading block is removed with no residual marker lines, the wikilink is
unwrapped, the tag is wrapped in backticks, and the result is trimmed. -/
theorem c8_transform_example :
    transformMarkdownForGitLab (("---\na: 1\n---\nBody #tag [[Link]]").toList)
      = ("Body `#tag` Link").toList := by
  decide

/-- C9: `searchProjects` validates items without requiring `web_url`: an item
with numeric `id`, string `name` and string `path_with_namespace` is included
in the search result even when `web_url` is absent, and the produced
project's `web_url` is then absent (`none`); `fetchUserProjects` drops such
an item (prepending it to a response array leaves the fetch result
unchanged). -/
theorem c9_search_includes_urlless_item (items : List RawItem) (p : RawItem)
    (hmem : p ∈ items) (hid : isNumField p.id = true)
    (hname : isStrField p.name = true)
    (hpath : isStrField p.path_with_namespace = true)
    (hurl : p.web_url = none) :
    mkProj p ∈ searchProjectsValidate items
    ∧ (mkProj p).web_url = none
    ∧ fetchUserProjectsValidate (p :: items) = fetchUserProjectsValidate items := by
  refine ⟨?_, ?_, ?_⟩
  · unfold searchProjectsValidate
    refine List.mem_map.mpr ⟨p, List.mem_filter.mpr ⟨hmem, ?_⟩, rfl⟩
    unfold searchItemValid
    rw [hid, hname, hpath]
    rfl
  · simp [mkProj, hurl]
  · have hval : fetchItemValid p = false := by
      unfold fetchItemValid
      rw [hurl]
      simp [isStrField]
    unfold fetchUserProjectsValidate
    rw [List.filter_cons, if_neg (by simp [hval])]

/-- C9 witness: a concrete response item with numeric id, string name and
path, and no `web_url`. -/
theorem c9_witness :
    mkProj (⟨some (JVal.n 1), some (JVal.s ("proj")), some (JVal.s ("grp/proj")),
        none, none⟩ : RawItem)
      ∈ searchProjectsValidate [⟨some (JVal.n 1), some (JVal.s ("proj")),
          some (JVal.s ("grp/proj")), none, none⟩]
    ∧ (mkProj (⟨some (JVal.n 1), some (JVal.s ("proj")), some (JVal.s ("grp/proj")),
        none, none⟩ : RawItem)).web_url = none
    ∧ fetchUserProjectsValidate ((⟨some (JVal.n 1), some (JVal.s ("proj")),
          some (JVal.s ("grp/proj")), none, none⟩ : RawItem)
        :: [⟨some (JVal.n 1), some (JVal.s ("proj")), some (JVal.s ("grp/proj")),
          none, none⟩])
      = fetchUserProjectsValidate [⟨some (JVal.n 1), some (JVal.s ("proj")),
          some (JVal.s ("grp/proj")), none, none⟩] :=
  c9_search_includes_urlless_item _ _ (by decide) rfl rfl rfl rfl

/-- C10: `sortProjectsFavoring` returns a permutation of its input list —
same elements with the same multiplicities, none added, dropped or
duplicated.  (The in-place mutation and array aliasing of the JavaScript
`Array.prototype.sort`, and `getItems`' defensive copy, are effects outside a
pure embedding; the multiset-preservation content is what is provable.) -/
theorem c10_sort_perm (projects : List GitLabProject) (favoriteIds : List Nat) :
    (sortProjectsFavoring projects favoriteIds).Perm projects :=
  sortByCmp_perm (projCompare favoriteIds) projects
